import Mathlib

/-!
Verification development for the pynetworks package (graph store,
DOT serialization, and the memoized branch-and-bound path search of
`pynetworks/pathfinding.py`).  The Python code is shallowly embedded:
nodes are identity-compared, so they are modelled by natural-number
identities; Python numbers are `Int`; a Python value that may be `None`
is an `Option`; a computation that may raise an uncaught exception or
run out of recursion fuel returns `Except Err`.
-/

namespace Pynetworks

/-- Uncaught failures of the embedded Python code: `fuelOut` stands for
exhausting the recursion fuel of the embedding, `typeErr` for an uncaught
Python `TypeError` (for example summing a `None` weight). -/
inductive Err where
  | fuelOut
  | typeErr
deriving DecidableEq, Repr

/-- An `Edge` of `pynetworks/networks.py`: the two endpoint node
identities and the optional numeric weight (`None` when the edge was
created without an explicit weight). -/
structure Edge where
  node1 : Nat
  node2 : Nat
  weight : Option Int
deriving DecidableEq, Repr

/-- A `Path` is a list of edges, as in `pathfinding.py` where `Path`
subclasses `list`. -/
abbrev Path := List Edge

/-- The adjacency state of the graph store: each node identity owns the
list of its incident (mirrored) edges, exactly like `Node.edges`. -/
abbrev Graph := Nat → List Edge

/-- Auxiliary fold for `Path.weight`: Python's
`sum(edge.weight for edge in self)` adds the weights left to right
starting from `0` and raises `TypeError` at the first `None` weight. -/
def pathWeightAux : List Edge → Int → Except Err Int
  | [], acc => .ok acc
  | e :: rest, acc =>
    match e.weight with
    | none => .error .typeErr
    | some w => pathWeightAux rest (acc + w)

/-- `Path.weight` from `pathfinding.py`: the sum of the edge weights,
raising `TypeError` when some edge has no weight. -/
def pathWeight (p : List Edge) : Except Err Int := pathWeightAux p 0

/-- `Node.connect` from `networks.py`: append the mirrored pair of edges
to the two endpoint edge lists. -/
def connect (g : Graph) (a b : Nat) (w : Option Int) : Graph :=
  fun n =>
    let l1 := if n = a then g n ++ [⟨a, b, w⟩] else g n
    if n = b then l1 ++ [⟨b, a, w⟩] else l1

/-- `Node.isolate` from `networks.py`: replace the receiving node's own
edge list with the empty list. -/
def isolate (g : Graph) (a : Nat) : Graph :=
  fun n => if n = a then [] else g n

/-- The graph with no edges at any node. -/
def emptyGraph : Graph := fun _ => []

/-- Association-list model of the Python `dict` used as memoization
cache: lookup returns the most recently inserted binding of a key. -/
def lookupC {κ α : Type} [DecidableEq κ] : List (κ × α) → κ → Option α
  | [], _ => none
  | (k, v) :: rest, key => if k = key then some v else lookupC rest key

/-- Insertion into the cache dictionary. -/
def insertC {κ α : Type} [DecidableEq κ] (c : List (κ × α)) (k : κ) (v : α) :
    List (κ × α) :=
  (k, v) :: c

/-- Result of one frame of `_continue_recursively` (and of the inner
search bodies): a found path, a definitive no-path return of `None`, or
the raised `_IncompleteSearchFoundNone` exception. -/
inductive LoopOut where
  | found (p : Path)
  | noPath
  | incomplete
deriving DecidableEq, Repr

/-- Python's `edge.weight + tail_weight` under the
`try ... except TypeError` of `_continue_recursively`: the sum when both
operands are numbers, and `None` (the caught `TypeError` branch) when
either operand is `None`. -/
def pyAdd : Option Int → Option Int → Option Int
  | some a, some b => some (a + b)
  | _, _ => none

/-- Cache of the memoized `shortest_path`: keys are the first two
arguments (start node, end node), values the stored return value
(a path or `None`). -/
abbrev SPCache := List ((Nat × Nat) × Option Path)

/-- Cache of `path_exists`: keys are (start, end), values booleans. -/
abbrev PECache := List ((Nat × Nat) × Bool)

/-- Cache of `shortest_path_through_network`: the second key component
is the canonicalized `frozenset` of the node-set argument. -/
abbrev TNCache := List ((Nat × Finset Nat) × Option Path)

/-- Cache key of `shortest_path_through_network`: the `memoize` wrapper
replaces a set argument by `frozenset(param)`, an order-independent
canonical form, modelled by `List.toFinset`. -/
def tnKey (start : Nat) (network : List Nat) : Nat × Finset Nat :=
  (start, network.toFinset)

/-- The body of `memoized_shortest_path_func` produced by `memoize` in
`pathfinding.py`, for the two path-returning search functions.  With
`save = false` it invokes the wrapped function without touching the
cache, converting the raised inconclusive condition to `None`; with
`save = true` it returns a cached value immediately on a hit, and on a
miss invokes the wrapped function and stores the result under the key,
except that an inconclusive outcome is returned as `None` without being
stored. -/
def memoized_call {κ : Type} [DecidableEq κ] (save : Bool) (key : κ)
    (inner : List (κ × Option Path) → Except Err (LoopOut × List (κ × Option Path)))
    (c : List (κ × Option Path)) :
    Except Err (Option Path × List (κ × Option Path)) :=
  if save then
    match lookupC c key with
    | some v => .ok (v, c)
    | none =>
      match inner c with
      | .error err => .error err
      | .ok (.found p, c') => .ok (some p, insertC c' key (some p))
      | .ok (.noPath, c') => .ok (none, insertC c' key none)
      | .ok (.incomplete, c') => .ok (none, c')
  else
    match inner c with
    | .error err => .error err
    | .ok (.found p, c') => .ok (some p, c')
    | .ok (.noPath, c') => .ok (none, c')
    | .ok (.incomplete, c') => .ok (none, c')

/-- The same `memoize` wrapper specialized to `path_exists`, whose
wrapped function returns a boolean and provably never raises the
inconclusive exception, so that branch of the wrapper is omitted. -/
def memoized_call_pe (save : Bool) (key : Nat × Nat)
    (inner : PECache → Except Err (Bool × PECache)) (c : PECache) :
    Except Err (Bool × PECache) :=
  if save then
    match lookupC c key with
    | some v => .ok (v, c)
    | none =>
      match inner c with
      | .error err => .error err
      | .ok (v, c') => .ok (v, insertC c' key v)
  else inner c

/-- `_continue_recursively` from `pathfinding.py`.  `recur` is the
memoized recursive call (taking the far endpoint, the new tail weight,
the best path weight, and the cache).  The loop carries the local
`best_path` variable (`none` while unbound), the
`edges_were_skipped` flag, and threads the cache through the recursive
calls.  On a `None` tail the `TypeError` of the addition is caught and
the edge is explored with a `None` tail; on a numeric candidate tail
that reaches the current best the edge is skipped and the flag set
(comparing against a `None` best is an uncaught `TypeError`).  A path
returned by the recursion is prepended with the traversed edge and
unconditionally adopted as `best_path`, updating `best_path_weight` to
its weight and `tail_weight` to `0`.  After the loop a bound
`best_path` is returned; otherwise the inconclusive exception is raised
when edges were skipped, else `None`. -/
def continue_recursively {κ : Type}
    (recur : Nat → Option Int → Option Int → κ → Except Err (Option Path × κ)) :
    List Edge → List Nat → Option Int → Option Int → Option Path → Bool → κ →
    Except Err (LoopOut × κ)
  | [], _, _, _, bestPath, skipped, c =>
    match bestPath with
    | some p => .ok (.found p, c)
    | none => if skipped then .ok (.incomplete, c) else .ok (.noPath, c)
  | edge :: rest, visited, tail, best, bestPath, skipped, c =>
    if edge.node2 ∈ visited then
      continue_recursively recur rest visited tail best bestPath skipped c
    else
      match pyAdd edge.weight tail with
      | none =>
        match recur edge.node2 none best c with
        | .error err => .error err
        | .ok (none, c') =>
          continue_recursively recur rest visited tail best bestPath skipped c'
        | .ok (some p, c') =>
          match pathWeight (edge :: p) with
          | .error err => .error err
          | .ok w =>
            continue_recursively recur rest visited (some 0) (some w)
              (some (edge :: p)) skipped c'
      | some n =>
        match best with
        | none => .error .typeErr
        | some bw =>
          if bw ≤ n then
            continue_recursively recur rest visited tail best bestPath true c
          else
            match recur edge.node2 (some n) best c with
            | .error err => .error err
            | .ok (none, c') =>
              continue_recursively recur rest visited tail best bestPath skipped c'
            | .ok (some p, c') =>
              match pathWeight (edge :: p) with
              | .error err => .error err
              | .ok w =>
                continue_recursively recur rest visited (some 0) (some w)
                  (some (edge :: p)) skipped c'

/-- The function wrapped by `memoize` in `shortest_path`: the base case
returns the empty path when `start` is identically `end`, otherwise the
search continues recursively over `start`'s edge list with
`visited ∪ {start}`. -/
def shortest_path_inner (g : Graph)
    (recur : Nat → Nat → List Nat → Option Int → Option Int → SPCache →
      Except Err (Option Path × SPCache))
    (start dst : Nat) (visited : List Nat) (tail best : Option Int)
    (c : SPCache) : Except Err (LoopOut × SPCache) :=
  if start = dst then .ok (.found [], c)
  else
    continue_recursively (fun n2 t b cc => recur n2 dst (start :: visited) t b cc)
      (g start) visited tail best none false c

/-- The memoized `shortest_path` of `pathfinding.py`, with explicit
recursion fuel, the `save_to_cache` flag, the private `_visited`,
`_tail_weight` and `_best_path_weight` arguments, and the shared cache
threaded through. -/
def shortest_path (g : Graph) :
    Nat → Bool → Nat → Nat → List Nat → Option Int → Option Int → SPCache →
    Except Err (Option Path × SPCache)
  | 0, _, _, _, _, _, _, _ => .error .fuelOut
  | fuel + 1, save, start, dst, visited, tail, best, c =>
    memoized_call save (start, dst)
      (shortest_path_inner g
        (fun s d v t b cc => shortest_path g fuel save s d v t b cc)
        start dst visited tail best) c

/-- The function wrapped by `memoize` in `path_exists`: plain recursive
reachability search with no weights and no pruning. -/
def path_exists_loop (recur : Nat → PECache → Except Err (Bool × PECache)) :
    List Edge → List Nat → PECache → Except Err (Bool × PECache)
  | [], _, c => .ok (false, c)
  | edge :: rest, visited, c =>
    if edge.node2 ∈ visited then path_exists_loop recur rest visited c
    else
      match recur edge.node2 c with
      | .error err => .error err
      | .ok (true, c') => .ok (true, c')
      | .ok (false, c') => path_exists_loop recur rest visited c'

/-- The body of `path_exists` before memoization. -/
def path_exists_inner (g : Graph)
    (recur : Nat → Nat → List Nat → PECache → Except Err (Bool × PECache))
    (start dst : Nat) (visited : List Nat) (c : PECache) :
    Except Err (Bool × PECache) :=
  if start = dst then .ok (true, c)
  else
    path_exists_loop (fun n2 cc => recur n2 dst (start :: visited) cc)
      (g start) visited c

/-- The memoized `path_exists` of `pathfinding.py`, with explicit fuel,
`save_to_cache` flag, `_visited`, and the shared cache. -/
def path_exists (g : Graph) :
    Nat → Bool → Nat → Nat → List Nat → PECache →
    Except Err (Bool × PECache)
  | 0, _, _, _, _, _ => .error .fuelOut
  | fuel + 1, save, start, dst, visited, c =>
    memoized_call_pe save (start, dst)
      (path_exists_inner g
        (fun s d v cc => path_exists g fuel save s d v cc)
        start dst visited) c

/-- The body of `shortest_path_through_network` before memoization: the
node-set argument minus the start node; empty remainder is the base
case, otherwise the same recursive traversal with the reduced set. -/
def shortest_path_through_network_inner (g : Graph)
    (recur : Nat → List Nat → List Nat → Option Int → Option Int → TNCache →
      Except Err (Option Path × TNCache))
    (start : Nat) (network : List Nat) (visited : List Nat)
    (tail best : Option Int) (c : TNCache) : Except Err (LoopOut × TNCache) :=
  let reduced := network.filter (fun x => x != start)
  if reduced.isEmpty then .ok (.found [], c)
  else
    continue_recursively (fun n2 t b cc => recur n2 reduced (start :: visited) t b cc)
      (g start) visited tail best none false c

/-- The memoized `shortest_path_through_network` of `pathfinding.py`,
with the set argument modelled as a list of node identities and the
cache key canonicalizing it to a `Finset` (the `frozenset` of the
wrapper). -/
def shortest_path_through_network (g : Graph) :
    Nat → Bool → Nat → List Nat → List Nat → Option Int → Option Int → TNCache →
    Except Err (Option Path × TNCache)
  | 0, _, _, _, _, _, _, _ => .error .fuelOut
  | fuel + 1, save, start, network, visited, tail, best, c =>
    memoized_call save (tnKey start network)
      (shortest_path_through_network_inner g
        (fun s p2 v t b cc => shortest_path_through_network g fuel save s p2 v t b cc)
        start network visited tail best) c

namespace Dot

/-- A node as seen by `pynetworks/dot.py`: only its display name is
used for serialization. -/
structure NodeObj where
  name : String

/-- An edge as seen by `pynetworks/dot.py`: endpoint nodes and the
optional weight used for the `[label=...]` suffix. -/
structure EdgeObj where
  node1 : NodeObj
  node2 : NodeObj
  weight : Option Int

/-- One character of `escape_dot_id`: backslashes and double quotes are
prefixed with a backslash. -/
def escapeChar (c : Char) : String :=
  if c = '\\' ∨ c = '"' then String.mk ['\\', c] else String.mk [c]

/-- The double-quote string used by `escape_dot_id`. -/
def quoteStr : String := String.mk ['"']

/-- `escape_dot_id` from `dot.py`: surround in double quotes and escape
backslashes and double quotes. -/
def escape_dot_id (s : String) : String :=
  quoteStr ++ String.join (s.toList.map escapeChar) ++ quoteStr

/-- The ` -- ` separator of an edge line. -/
def edgeSep : String := " -- "

/-- The `[label=` prefix of a weight label. -/
def labelOpen : String := " [label="

/-- The `]` closing a weight label. -/
def labelClose : String := "]"

/-- `Edge.dot` from `networks.py`: the quoted endpoint names joined by
` -- `, followed by a label suffix when the weight is truthy (a weight
of `None` or `0` is falsy in Python and produces no label). -/
def edgeDot (e : EdgeObj) : String :=
  let unlabeled := escape_dot_id e.node1.name ++ edgeSep ++ escape_dot_id e.node2.name
  match e.weight with
  | none => unlabeled
  | some w => if w = 0 then unlabeled else unlabeled ++ labelOpen ++ toString w ++ labelClose

/-- The `\n\t` separator of the DOT body. -/
def nlTab : String := String.mk ['\n', '\t']

/-- The `graph ` opening token sequence. -/
def graphTok : String := "graph "

/-- The opening-brace-plus-indent of the DOT body. -/
def braceOpen : String := String.mk ['\x7b', '\n', '\t']

/-- The newline-plus-closing-brace of the DOT body. -/
def braceClose : String := String.mk ['\n', '\x7d']

/-- A single space. -/
def spaceStr : String := " "

/-- `dotgraph` from `pynetworks/dot.py`: serialize isolated nodes and
edges into a DOT text block, with an optional quoted name. -/
def dotgraph (isolated_nodes : List NodeObj) (connections : List EdgeObj)
    (name : String) : String :=
  let nodes := String.intercalate nlTab (isolated_nodes.map (fun n => escape_dot_id n.name))
  let middle := if ¬ isolated_nodes.isEmpty ∧ ¬ connections.isEmpty then nlTab else ""
  let edges := String.intercalate nlTab (connections.map edgeDot)
  graphTok ++ (if name = "" then "" else escape_dot_id name ++ spaceStr) ++
    braceOpen ++ nodes ++ middle ++ edges ++ braceClose

/-- The parameter names of `dotgraph` as defined in
`src/pynetworks/dot.py`: `isolated_nodes`, `connections`, `name`. -/
def dotgraphParamNames : List String := ["isolated_nodes", "connections", "name"]

/-- The keyword under which `Path.__str__` in `pathfinding.py` passes
the path's edge sequence to `dotgraph` (the call `dotgraph(edges=self)`). -/
def pathStrKeyword : String := "edges"

/-- The Python error raised for a keyword argument that matches no
parameter of the called function. -/
def unexpectedKeywordMsg : String := "TypeError: dotgraph() got an unexpected keyword argument"

/-- `Path.__str__`: the call `dotgraph(edges=self)` binds the edge list
to a parameter named `edges` if `dotgraph` has one, passing no isolated
nodes and no name; with no such parameter Python raises `TypeError`. -/
def pathStr (p : List EdgeObj) : Except String String :=
  if pathStrKeyword ∈ dotgraphParamNames then .ok (dotgraph [] p "")
  else .error unexpectedKeywordMsg

end Dot

/-! Concrete graphs used by the claims below.  Each is built by the
`connect` calls listed, so edge-list iteration order matches the Python
insertion order. -/

/-- Graph with nodes `c = 0`, `b = 1`, `p = 2`, `d = 3`, `e = 4` and
edges c-b(3), c-p(1), p-d(1), d-e(1), e-b(10), connected in that
order. -/
def exG1 : Graph :=
  connect (connect (connect (connect (connect emptyGraph 0 1 (some 3))
    0 2 (some 1)) 2 3 (some 1)) 3 4 (some 1)) 4 1 (some 10)

/-- The three-node chain A(0)-B(1) weight 2, B(1)-C(2) weight 3. -/
def exGA : Graph := connect (connect emptyGraph 0 1 (some 2)) 1 2 (some 3)

/-- Nodes a(0), b(1), c(2), d(3) with edges a-d(2), b-c(2), b-d(3),
c-d(3), connected in that order. -/
def exGB : Graph :=
  connect (connect (connect (connect emptyGraph 0 3 (some 2)) 1 2 (some 2))
    1 3 (some 3)) 2 3 (some 3)

/-- The single-edge graph 0-1 with weight 1. -/
def exGD : Graph := connect emptyGraph 0 1 (some 1)

/-- A top-level call of the memoized `shortest_path`: fresh private
arguments (`_visited=None` giving the empty visited set, no tail, no
best bound) and caching enabled. -/
def runShortest (g : Graph) (fuel s d : Nat) (c : SPCache) :
    Except Err (Option Path × SPCache) :=
  shortest_path g fuel true s d [] none none c

/-- The value returned to the caller by `runShortest` (`none` when the
run crashed or ran out of fuel). -/
def runResult (g : Graph) (fuel s d : Nat) : Option (Option Path) :=
  match runShortest g fuel s d [] with
  | .ok (r, _) => some r
  | .error _ => none

/-- The cache contents after a run of `runShortest` on a fresh cache. -/
def cacheAfter (g : Graph) (fuel s d : Nat) : SPCache :=
  match runShortest g fuel s d [] with
  | .ok (_, c) => c
  | .error _ => []

/-- The cache contents after a top-level `path_exists` call on a fresh
cache. -/
def peCacheAfter (g : Graph) (fuel s d : Nat) : PECache :=
  match path_exists g fuel true s d [] [] with
  | .ok (_, c) => c
  | .error _ => []

/-- Modelled from the spec: the path weight described by the claim
"Path.weight equals the sum of the weights of its explicitly weighted
edges, with each weight-absent edge contributing nothing", for
comparison with the code's `pathWeight`. -/
def specPathWeight (p : List Edge) : Int :=
  (p.map (fun e => e.weight.getD 0)).sum

/-- The DOT text `dotgraph` produces for the one-edge example path
(what `str(path)` was intended to return). -/
def exPathDot : String := "graph \x7b\n\t\"A\" -- \"B\" [label=3]\n\x7d"

/-! Reachability and the cache invariants used to relate the memoized
searches to graph reachability. -/

/-- One traversal step: some edge stored at `x` has far endpoint `y`. -/
def adjStep (g : Graph) (x y : Nat) : Prop :=
  ∃ e, e ∈ g x ∧ e.node2 = y

/-- Reachability along stored edges. -/
def Reach (g : Graph) : Nat → Nat → Prop :=
  Relation.ReflTransGen (adjStep g)

/-- Domain monotonicity between two caches: every key bound in the
first is still bound in the second. -/
def subDom {κ α : Type} [DecidableEq κ] (c c' : List (κ × α)) : Prop :=
  ∀ k, (lookupC c k).isSome → (lookupC c' k).isSome

/-- Invariant of a `path_exists` run that has found nothing yet: every
cache entry with second key component `dst` is `false`, its node is not
`dst`, and each of its neighbours is either on the current recursion
stack `V` or also has a `false` entry. -/
def falseClosed (g : Graph) (dst : Nat) (c : PECache) (V : List Nat) : Prop :=
  ∀ x r, lookupC c (x, dst) = some r →
    r = false ∧ x ≠ dst ∧
      ∀ e ∈ g x, e.node2 ∈ V ∨ lookupC c (e.node2, dst) = some false

/-- Soundness invariant for `path_exists` caches: a `true` entry means
its node reaches `dst`. -/
def trueSoundCache (g : Graph) (dst : Nat) (c : PECache) : Prop :=
  ∀ x, lookupC c (x, dst) = some true → Reach g x dst

/-- Invariant of a `shortest_path` run that has found nothing yet:
every cache entry with second key component `dst` stores `None`, its
node is not `dst`, and each of its neighbours is either on the current
recursion stack `V` or also has a `None` entry. -/
def noneClosed (g : Graph) (dst : Nat) (c : SPCache) (V : List Nat) : Prop :=
  ∀ x r, lookupC c (x, dst) = some r →
    r = none ∧ x ≠ dst ∧
      ∀ e ∈ g x, e.node2 ∈ V ∨ lookupC c (e.node2, dst) = some none

/-- Soundness invariant for `shortest_path` caches: an entry holding a
path means its node reaches `dst`. -/
def someSoundCache (g : Graph) (dst : Nat) (c : SPCache) : Prop :=
  ∀ x p, lookupC c (x, dst) = some (some p) → Reach g x dst

/-! Auxiliary lemmas on the weight fold. -/

/-- When every edge of the path carries a weight, the weight fold
returns the accumulator plus the sum of the weights. -/
theorem pathWeightAux_all_some (p : List Edge) :
    ∀ acc : Int, (∀ e ∈ p, e.weight ≠ none) →
      pathWeightAux p acc = .ok (acc + specPathWeight p) := by
  induction p with
  | nil =>
    intro acc _
    simp [pathWeightAux, specPathWeight]
  | cons e rest ih =>
    intro acc h
    rcases hw : e.weight with _ | w
    · exact absurd hw (h e (List.mem_cons_self e rest))
    · have hr := ih (acc + w) (fun x hx => h x (List.mem_cons_of_mem e hx))
      simp [pathWeightAux, hw, hr, specPathWeight, add_assoc]

/-- A weight-absent edge anywhere in the path makes the weight fold
raise `TypeError`. -/
theorem pathWeightAux_has_none (p : List Edge) :
    ∀ (acc : Int) (e : Edge), e ∈ p → e.weight = none →
      pathWeightAux p acc = .error .typeErr := by
  induction p with
  | nil =>
    intro acc e he _
    cases he
  | cons f rest ih =>
    intro acc e he hw
    rcases hf : f.weight with _ | w
    · simp [pathWeightAux, hf]
    · rcases List.mem_cons.mp he with rfl | hmem
      · rw [hf] at hw
        cases hw
      · simp [pathWeightAux, hf, ih (acc + w) e hmem hw]

/-! Cache dictionary lemmas. -/

/-- Looking up the key just inserted returns the inserted value. -/
theorem lookupC_insert_self {κ α : Type} [DecidableEq κ]
    (c : List (κ × α)) (k : κ) (v : α) :
    lookupC (insertC c k v) k = some v := by
  simp [insertC, lookupC]

/-- Inserting a different key leaves a lookup unchanged. -/
theorem lookupC_insert_ne {κ α : Type} [DecidableEq κ]
    (c : List (κ × α)) (k k' : κ) (v : α) (h : k ≠ k') :
    lookupC (insertC c k v) k' = lookupC c k' := by
  simp [insertC, lookupC, h]

/-- Domain inclusion is reflexive. -/
theorem subDom_refl {κ α : Type} [DecidableEq κ] (c : List (κ × α)) :
    subDom c c :=
  fun _ h => h

/-- Domain inclusion is transitive. -/
theorem subDom_trans {κ α : Type} [DecidableEq κ] {a b c : List (κ × α)}
    (h1 : subDom a b) (h2 : subDom b c) : subDom a c :=
  fun k h => h2 k (h1 k h)

/-- Insertion only grows the cache domain. -/
theorem subDom_insert {κ α : Type} [DecidableEq κ]
    (c : List (κ × α)) (k : κ) (v : α) : subDom c (insertC c k v) := by
  intro k' h
  by_cases hk : k = k'
  · subst hk
    simp [lookupC_insert_self]
  · rw [lookupC_insert_ne c k k' v hk]
    exact h

/-- Adding a `None` tail always yields `None` (the `TypeError` branch of
the tail-weight addition). -/
theorem pyAdd_none_right (w : Option Int) : pyAdd w none = none := by
  cases w <;> rfl

/-! Lemmas about `path_exists`: domain monotonicity of its cache, the
closure invariant of a failed search, and soundness of a successful
one. -/

/-- The loop of `path_exists` only grows the cache domain. -/
theorem path_exists_loop_dom
    (recur : Nat → PECache → Except Err (Bool × PECache))
    (hrec : ∀ n2 c out c', recur n2 c = .ok (out, c') → subDom c c') :
    ∀ (edges : List Edge) (V : List Nat) (c : PECache) (out : Bool)
      (c' : PECache),
      path_exists_loop recur edges V c = .ok (out, c') → subDom c c' := by
  intro edges
  induction edges with
  | nil =>
    intro V c out c' h
    simp [path_exists_loop] at h
    rw [← h.2]
    exact subDom_refl c
  | cons e rest ih =>
    intro V c out c' h
    by_cases hv : e.node2 ∈ V
    · simp only [path_exists_loop, if_pos hv] at h
      exact ih V c out c' h
    · rcases hr : recur e.node2 c with err | ⟨r, c₁⟩
      · simp [path_exists_loop, if_neg hv, hr] at h
      · simp only [path_exists_loop, if_neg hv, hr] at h
        cases r
        · exact subDom_trans (hrec e.node2 c false c₁ hr) (ih V c₁ out c' h)
        · simp at h
          rw [← h.2]
          exact hrec e.node2 c true c₁ hr

/-- The body of `path_exists` only grows the cache domain. -/
theorem path_exists_inner_dom (g : Graph)
    (recur : Nat → Nat → List Nat → PECache → Except Err (Bool × PECache))
    (hrec : ∀ s d v c out c', recur s d v c = .ok (out, c') → subDom c c') :
    ∀ (x dst : Nat) (V : List Nat) (c : PECache) (out : Bool) (c' : PECache),
      path_exists_inner g recur x dst V c = .ok (out, c') → subDom c c' := by
  intro x dst V c out c' h
  by_cases hx : x = dst
  · simp [path_exists_inner, hx] at h
    rw [← h.2]
    exact subDom_refl c
  · simp only [path_exists_inner, if_neg hx] at h
    exact path_exists_loop_dom _
      (fun n2 cc o cc' hh => hrec n2 dst (x :: V) cc o cc' hh)
      (g x) V c out c' h

/-- The memoized `path_exists` only grows the cache domain. -/
theorem path_exists_dom (g : Graph) :
    ∀ (fuel : Nat) (save : Bool) (x dst : Nat) (V : List Nat) (c : PECache)
      (out : Bool) (c' : PECache),
      path_exists g fuel save x dst V c = .ok (out, c') → subDom c c' := by
  intro fuel
  induction fuel with
  | zero =>
    intro save x dst V c out c' h
    simp [path_exists] at h
  | succ fuel ih =>
    intro save x dst V c out c' h
    cases save
    · simp only [path_exists, memoized_call_pe, Bool.false_eq_true, if_false] at h
      exact path_exists_inner_dom g _ (fun s d v cc o cc' hh => ih false s d v cc o cc' hh)
        x dst V c out c' h
    · rcases hl : lookupC c (x, dst) with _ | v
      · rcases hin : path_exists_inner g
            (fun s d v cc => path_exists g fuel true s d v cc) x dst V c with err | ⟨r, c₁⟩
        · simp [path_exists, memoized_call_pe, hl, hin] at h
        · simp only [path_exists, memoized_call_pe, if_true, hl, hin] at h
          simp at h
          rw [← h.2]
          exact subDom_trans
            (path_exists_inner_dom g _
              (fun s d v cc o cc' hh => ih true s d v cc o cc' hh) x dst V c r c₁ hin)
            (subDom_insert c₁ (x, dst) r)
      · simp [path_exists, memoized_call_pe, hl] at h
        rw [← h.2]
        exact subDom_refl c

/-- Weakening the stack of the failed-search closure invariant. -/
theorem falseClosed_weaken (g : Graph) (dst : Nat) (c : PECache)
    (V : List Nat) (x : Nat) (h : falseClosed g dst c V) :
    falseClosed g dst c (x :: V) := by
  intro y r hy
  obtain ⟨h1, h2, h3⟩ := h y r hy
  exact ⟨h1, h2, fun e he => (h3 e he).imp (fun hv => List.mem_cons_of_mem x hv) id⟩

/-- A `false` entry survives the insertion of another `false` entry. -/
theorem lookup_false_persists (c : PECache) (x n dst : Nat)
    (h : lookupC c (n, dst) = some false) :
    lookupC (insertC c (x, dst) false) (n, dst) = some false := by
  by_cases hk : ((x, dst) : Nat × Nat) = (n, dst)
  · rw [hk, lookupC_insert_self]
  · rw [lookupC_insert_ne _ _ _ _ hk]
    exact h

/-- Completing a frame preserves the failed-search closure invariant:
popping `x` from the stack is compensated by its new `false` entry. -/
theorem falseClosed_insert (g : Graph) (dst : Nat) (c : PECache)
    (V : List Nat) (x : Nat) (hcl : falseClosed g dst c (x :: V))
    (hx : x ≠ dst)
    (hnb : ∀ e ∈ g x, e.node2 ∈ V ∨ lookupC c (e.node2, dst) = some false) :
    falseClosed g dst (insertC c (x, dst) false) V := by
  intro y r hy
  by_cases hxy : y = x
  · subst hxy
    rw [lookupC_insert_self] at hy
    have hr : r = false := by
      injection hy with hy'
      exact hy'.symm
    subst hr
    refine ⟨rfl, hx, fun e he => ?_⟩
    rcases hnb e he with hv | hl
    · exact Or.inl hv
    · exact Or.inr (lookup_false_persists c y e.node2 dst hl)
  · rw [lookupC_insert_ne _ _ _ _ (fun hk => hxy (congrArg Prod.fst hk).symm)] at hy
    obtain ⟨h1, h2, h3⟩ := hcl y r hy
    refine ⟨h1, h2, fun e he => ?_⟩
    rcases h3 e he with hv | hl
    · rcases List.mem_cons.mp hv with rfl | hvv
      · exact Or.inr (by rw [lookupC_insert_self])
      · exact Or.inl hvv
    · exact Or.inr (lookup_false_persists c x e.node2 dst hl)

/-- Failed-search closure through the loop of `path_exists`: if every
recursive call preserves the invariant and the whole loop returns
`false`, the invariant holds afterwards and every listed edge leads
either into the caller's stack or to a node with a `false` entry. -/
theorem path_exists_loop_false (g : Graph) (dst x : Nat) (V : List Nat)
    (recur : Nat → PECache → Except Err (Bool × PECache))
    (hdom : ∀ n2 c out c', recur n2 c = .ok (out, c') → subDom c c')
    (hrec : ∀ n2 c out c', falseClosed g dst c (x :: V) →
      recur n2 c = .ok (out, c') → out = false →
      falseClosed g dst c' (x :: V) ∧ lookupC c' (n2, dst) = some false) :
    ∀ (edges : List Edge) (c : PECache) (out : Bool) (c' : PECache),
      falseClosed g dst c (x :: V) →
      path_exists_loop recur edges V c = .ok (out, c') → out = false →
      falseClosed g dst c' (x :: V) ∧
        ∀ e ∈ edges, e.node2 ∈ V ∨ lookupC c' (e.node2, dst) = some false := by
  intro edges
  induction edges with
  | nil =>
    intro c out c' hcl h _
    simp [path_exists_loop] at h
    rw [← h.2]
    exact ⟨hcl, by simp⟩
  | cons e rest ih =>
    intro c out c' hcl h hout
    by_cases hv : e.node2 ∈ V
    · simp only [path_exists_loop, if_pos hv] at h
      obtain ⟨hcl', hrest⟩ := ih c out c' hcl h hout
      refine ⟨hcl', fun f hf => ?_⟩
      rcases List.mem_cons.mp hf with rfl | hm
      · exact Or.inl hv
      · exact hrest f hm
    · rcases hr : recur e.node2 c with err | ⟨r, c₁⟩
      · simp [path_exists_loop, if_neg hv, hr] at h
      · simp only [path_exists_loop, if_neg hv, hr] at h
        cases r
        · obtain ⟨hcl₁, hentry⟩ := hrec e.node2 c false c₁ hcl hr rfl
          obtain ⟨hcl', hrest⟩ := ih c₁ out c' hcl₁ h hout
          refine ⟨hcl', fun f hf => ?_⟩
          rcases List.mem_cons.mp hf with rfl | hm
          · right
            have hd : subDom c₁ c' :=
              path_exists_loop_dom recur hdom rest V c₁ out c' h
            have hs : (lookupC c' (f.node2, dst)).isSome :=
              hd (f.node2, dst) (by simp [hentry])
            rcases ho : lookupC c' (f.node2, dst) with _ | rv
            · simp [ho] at hs
            · have hrv := (hcl' f.node2 rv ho).1
              rw [hrv]
          · exact hrest f hm
        · simp at h
          rw [h.1] at hout
          cases hout

/-- A `true` outcome of the loop of `path_exists` implies reachability
from the frame's node, and `true` cache entries stay sound. -/
theorem path_exists_loop_sound (g : Graph) (dst x : Nat) (V : List Nat)
    (recur : Nat → PECache → Except Err (Bool × PECache))
    (hrec : ∀ n2 c out c', trueSoundCache g dst c → recur n2 c = .ok (out, c') →
      trueSoundCache g dst c' ∧ (out = true → Reach g n2 dst)) :
    ∀ (edges : List Edge), (∀ e ∈ edges, e ∈ g x) →
      ∀ (c : PECache) (out : Bool) (c' : PECache),
        trueSoundCache g dst c →
        path_exists_loop recur edges V c = .ok (out, c') →
        trueSoundCache g dst c' ∧ (out = true → Reach g x dst) := by
  intro edges
  induction edges with
  | nil =>
    intro _ c out c' hs h
    simp [path_exists_loop] at h
    rw [← h.2]
    refine ⟨hs, fun hout => ?_⟩
    rw [h.1] at hout
    simp at hout
  | cons e rest ih =>
    intro hedges c out c' hs h
    by_cases hv : e.node2 ∈ V
    · simp only [path_exists_loop, if_pos hv] at h
      exact ih (fun f hf => hedges f (List.mem_cons_of_mem e hf)) c out c' hs h
    · rcases hr : recur e.node2 c with err | ⟨r, c₁⟩
      · simp [path_exists_loop, if_neg hv, hr] at h
      · simp only [path_exists_loop, if_neg hv, hr] at h
        obtain ⟨hs₁, hreach⟩ := hrec e.node2 c r c₁ hs hr
        cases r
        · exact ih (fun f hf => hedges f (List.mem_cons_of_mem e hf)) c₁ out c' hs₁ h
        · simp at h
          rw [← h.2]
          refine ⟨hs₁, fun _ => ?_⟩
          exact Relation.ReflTransGen.head
            ⟨e, hedges e (List.mem_cons_self e rest), rfl⟩ (hreach rfl)

/-- A failing run of the memoized `path_exists` (with caching on)
preserves the failed-search closure invariant and leaves a `false`
entry for its own key. -/
theorem path_exists_false_main (g : Graph) (dst : Nat) :
    ∀ (fuel x : Nat) (V : List Nat) (c : PECache) (out : Bool) (c' : PECache),
      falseClosed g dst c V →
      path_exists g fuel true x dst V c = .ok (out, c') → out = false →
      falseClosed g dst c' V ∧ lookupC c' (x, dst) = some false := by
  intro fuel
  induction fuel with
  | zero =>
    intro x V c out c' _ h _
    simp [path_exists] at h
  | succ fuel ih =>
    intro x V c out c' hcl h hout
    rcases hl : lookupC c (x, dst) with _ | v
    · rcases hin : path_exists_inner g
          (fun s d v cc => path_exists g fuel true s d v cc) x dst V c with err | ⟨r, c₁⟩
      · simp [path_exists, memoized_call_pe, hl, hin] at h
      · simp only [path_exists, memoized_call_pe, if_true, hl, hin] at h
        simp at h
        obtain ⟨ho, hc⟩ := h
        rw [← ho] at hout
        subst hout
        rw [← hc]
        by_cases hx : x = dst
        · simp [path_exists_inner, hx] at hin
        · simp only [path_exists_inner, if_neg hx] at hin
          have hloop := path_exists_loop_false g dst x V
            (fun n2 cc => path_exists g fuel true n2 dst (x :: V) cc)
            (fun n2 cc o cc' hh => path_exists_dom g fuel true n2 dst (x :: V) cc o cc' hh)
            (fun n2 cc o cc' hclc hrc hoo => ih n2 (x :: V) cc o cc' hclc hrc hoo)
            (g x) c false c₁ (falseClosed_weaken g dst c V x hcl) hin rfl
          exact ⟨falseClosed_insert g dst c₁ V x hloop.1 hx hloop.2,
            lookupC_insert_self c₁ (x, dst) false⟩
    · simp [path_exists, memoized_call_pe, hl] at h
      obtain ⟨ho, hc⟩ := h
      have hv := (hcl x v hl).1
      rw [← hc]
      rw [hv] at hl
      exact ⟨hcl, hl⟩

/-- A `true` result of the memoized `path_exists` implies reachability,
under the soundness invariant on `true` cache entries. -/
theorem path_exists_sound_main (g : Graph) (dst : Nat) :
    ∀ (fuel : Nat) (save : Bool) (x : Nat) (V : List Nat) (c : PECache)
      (out : Bool) (c' : PECache),
      trueSoundCache g dst c →
      path_exists g fuel save x dst V c = .ok (out, c') →
      trueSoundCache g dst c' ∧ (out = true → Reach g x dst) := by
  intro fuel
  induction fuel with
  | zero =>
    intro save x V c out c' _ h
    simp [path_exists] at h
  | succ fuel ih =>
    intro save x V c out c' hs h
    have hinner : ∀ (c0 : PECache) (r : Bool) (c₁ : PECache),
        trueSoundCache g dst c0 →
        path_exists_inner g (fun s d v cc => path_exists g fuel save s d v cc)
          x dst V c0 = .ok (r, c₁) →
        trueSoundCache g dst c₁ ∧ (r = true → Reach g x dst) := by
      intro c0 r c₁ hs0 hin
      by_cases hx : x = dst
      · simp [path_exists_inner, hx] at hin
        obtain ⟨hr, hc⟩ := hin
        rw [← hc]
        refine ⟨hs0, fun _ => ?_⟩
        rw [hx]
        exact Relation.ReflTransGen.refl
      · simp only [path_exists_inner, if_neg hx] at hin
        exact path_exists_loop_sound g dst x V
          (fun n2 cc => path_exists g fuel save n2 dst (x :: V) cc)
          (fun n2 cc o cc' hsc hrc => ih save n2 (x :: V) cc o cc' hsc hrc)
          (g x) (fun f hf => hf) c0 r c₁ hs0 hin
    cases save
    · simp only [path_exists, memoized_call_pe, Bool.false_eq_true, if_false] at h
      exact hinner c out c' hs h
    · rcases hl : lookupC c (x, dst) with _ | v
      · rcases hin : path_exists_inner g
            (fun s d v cc => path_exists g fuel true s d v cc) x dst V c with err | ⟨r, c₁⟩
        · simp [path_exists, memoized_call_pe, hl, hin] at h
        · simp only [path_exists, memoized_call_pe, if_true, hl, hin] at h
          simp at h
          obtain ⟨ho, hc⟩ := h
          obtain ⟨hs₁, hreach⟩ := hinner c r c₁ hs hin
          rw [← hc, ← ho]
          constructor
          · intro y hy
            by_cases hk : ((x, dst) : Nat × Nat) = (y, dst)
            · have hxy : x = y := congrArg Prod.fst hk
              rw [← hxy] at hy ⊢
              rw [lookupC_insert_self] at hy
              injection hy with hy'
              exact hreach hy'
            · rw [lookupC_insert_ne _ _ _ _ hk] at hy
              exact hs₁ y hy
          · exact hreach
      · simp [path_exists, memoized_call_pe, hl] at h
        obtain ⟨ho, hc⟩ := h
        rw [← hc, ← ho]
        refine ⟨hs, fun hv => ?_⟩
        rw [hv] at hl
        exact hs x hl

/-! Lemmas about `_continue_recursively` and `shortest_path`. -/

/-- Any reflexive-transitive relation preserved by the recursive call is
preserved by the loop of `_continue_recursively`. -/
theorem continue_recursively_rel {κ : Type}
    (recur : Nat → Option Int → Option Int → κ → Except Err (Option Path × κ))
    (P : κ → κ → Prop)
    (hrefl : ∀ c, P c c)
    (htrans : ∀ {a b c : κ}, P a b → P b c → P a c)
    (hrec : ∀ n2 t b c out c', recur n2 t b c = .ok (out, c') → P c c') :
    ∀ (edges : List Edge) (V : List Nat) (t b : Option Int) (bp : Option Path)
      (sk : Bool) (c : κ) (out : LoopOut) (c' : κ),
      continue_recursively recur edges V t b bp sk c = .ok (out, c') → P c c' := by
  intro edges
  induction edges with
  | nil =>
    intro V t b bp sk c out c' h
    cases bp
    · cases sk
      · simp [continue_recursively] at h
        rw [← h.2]
        exact hrefl c
      · simp [continue_recursively] at h
        rw [← h.2]
        exact hrefl c
    · simp [continue_recursively] at h
      rw [← h.2]
      exact hrefl c
  | cons e rest ih =>
    intro V t b bp sk c out c' h
    by_cases hv : e.node2 ∈ V
    · simp only [continue_recursively, hv, if_true] at h
      exact ih V t b bp sk c out c' h
    · rcases ha : pyAdd e.weight t with _ | n
      · rcases hr : recur e.node2 none b c with err | ⟨_ | p, c₁⟩
        · simp [continue_recursively, hv, ha, hr] at h
        · simp only [continue_recursively, hv, if_false, ha, hr] at h
          exact htrans (hrec _ _ _ _ _ _ hr) (ih V t b bp sk c₁ out c' h)
        · rcases hw : pathWeight (e :: p) with werr | w
          · simp [continue_recursively, hv, ha, hr, hw] at h
          · simp only [continue_recursively, hv, if_false, ha, hr, hw] at h
            exact htrans (hrec _ _ _ _ _ _ hr)
              (ih V (some 0) (some w) (some (e :: p)) sk c₁ out c' h)
      · rcases b with _ | bw
        · simp [continue_recursively, hv, ha] at h
        · by_cases hle : bw ≤ n
          · simp only [continue_recursively, hv, if_false, ha, hle, if_true] at h
            exact ih V t (some bw) bp true c out c' h
          · rcases hr : recur e.node2 (some n) (some bw) c with err | ⟨_ | p, c₁⟩
            · simp [continue_recursively, hv, ha, hle, hr] at h
            · simp only [continue_recursively, hv, if_false, ha, hle, hr] at h
              exact htrans (hrec _ _ _ _ _ _ hr) (ih V t (some bw) bp sk c₁ out c' h)
            · rcases hw : pathWeight (e :: p) with werr | w
              · simp [continue_recursively, hv, ha, hle, hr, hw] at h
              · simp only [continue_recursively, hv, if_false, ha, hle, hr, hw] at h
                exact htrans (hrec _ _ _ _ _ _ hr)
                  (ih V (some 0) (some w) (some (e :: p)) sk c₁ out c' h)

/-- Once `best_path` is bound it stays bound: the loop of
`_continue_recursively` started with a bound `best_path` returns a
found path (never `noPath` or the inconclusive signal). -/
theorem continue_recursively_found {κ : Type}
    (recur : Nat → Option Int → Option Int → κ → Except Err (Option Path × κ)) :
    ∀ (edges : List Edge) (V : List Nat) (t b : Option Int) (p0 : Path)
      (sk : Bool) (c : κ) (out : LoopOut) (c' : κ),
      continue_recursively recur edges V t b (some p0) sk c = .ok (out, c') →
      ∃ p, out = .found p := by
  intro edges
  induction edges with
  | nil =>
    intro V t b p0 sk c out c' h
    simp [continue_recursively] at h
    exact ⟨p0, h.1.symm⟩
  | cons e rest ih =>
    intro V t b p0 sk c out c' h
    by_cases hv : e.node2 ∈ V
    · simp only [continue_recursively, hv, if_true] at h
      exact ih V t b p0 sk c out c' h
    · rcases ha : pyAdd e.weight t with _ | n
      · rcases hr : recur e.node2 none b c with err | ⟨_ | p, c₁⟩
        · simp [continue_recursively, hv, ha, hr] at h
        · simp only [continue_recursively, hv, if_false, ha, hr] at h
          exact ih V t b p0 sk c₁ out c' h
        · rcases hw : pathWeight (e :: p) with werr | w
          · simp [continue_recursively, hv, ha, hr, hw] at h
          · simp only [continue_recursively, hv, if_false, ha, hr, hw] at h
            exact ih V (some 0) (some w) (e :: p) sk c₁ out c' h
      · rcases b with _ | bw
        · simp [continue_recursively, hv, ha] at h
        · by_cases hle : bw ≤ n
          · simp only [continue_recursively, hv, if_false, ha, hle, if_true] at h
            exact ih V t (some bw) p0 true c out c' h
          · rcases hr : recur e.node2 (some n) (some bw) c with err | ⟨_ | p, c₁⟩
            · simp [continue_recursively, hv, ha, hle, hr] at h
            · simp only [continue_recursively, hv, if_false, ha, hle, hr] at h
              exact ih V t (some bw) p0 sk c₁ out c' h
            · rcases hw : pathWeight (e :: p) with werr | w
              · simp [continue_recursively, hv, ha, hle, hr, hw] at h
              · simp only [continue_recursively, hv, if_false, ha, hle, hr, hw] at h
                exact ih V (some 0) (some w) (e :: p) sk c₁ out c' h

/-- Weakening the stack of the `None`-closure invariant. -/
theorem noneClosed_weaken (g : Graph) (dst : Nat) (c : SPCache)
    (V : List Nat) (x : Nat) (h : noneClosed g dst c V) :
    noneClosed g dst c (x :: V) := by
  intro y r hy
  obtain ⟨h1, h2, h3⟩ := h y r hy
  exact ⟨h1, h2, fun e he => (h3 e he).imp (fun hv => List.mem_cons_of_mem x hv) id⟩

/-- A `None` entry survives the insertion of another `None` entry. -/
theorem lookup_none_persists (c : SPCache) (x n dst : Nat)
    (h : lookupC c (n, dst) = some none) :
    lookupC (insertC c (x, dst) none) (n, dst) = some none := by
  by_cases hk : ((x, dst) : Nat × Nat) = (n, dst)
  · rw [hk, lookupC_insert_self]
  · rw [lookupC_insert_ne _ _ _ _ hk]
    exact h

/-- Completing a `shortest_path` frame that found nothing preserves the
`None`-closure invariant. -/
theorem noneClosed_insert (g : Graph) (dst : Nat) (c : SPCache)
    (V : List Nat) (x : Nat) (hcl : noneClosed g dst c (x :: V))
    (hx : x ≠ dst)
    (hnb : ∀ e ∈ g x, e.node2 ∈ V ∨ lookupC c (e.node2, dst) = some none) :
    noneClosed g dst (insertC c (x, dst) none) V := by
  intro y r hy
  by_cases hxy : y = x
  · subst hxy
    rw [lookupC_insert_self] at hy
    have hr : r = none := by
      injection hy with hy'
      exact hy'.symm
    subst hr
    refine ⟨rfl, hx, fun e he => ?_⟩
    rcases hnb e he with hv | hl
    · exact Or.inl hv
    · exact Or.inr (lookup_none_persists c y e.node2 dst hl)
  · rw [lookupC_insert_ne _ _ _ _ (fun hk => hxy (congrArg Prod.fst hk).symm)] at hy
    obtain ⟨h1, h2, h3⟩ := hcl y r hy
    refine ⟨h1, h2, fun e he => ?_⟩
    rcases h3 e he with hv | hl
    · rcases List.mem_cons.mp hv with rfl | hvv
      · exact Or.inr (by rw [lookupC_insert_self])
      · exact Or.inl hvv
    · exact Or.inr (lookup_none_persists c x e.node2 dst hl)

/-- The body of `shortest_path` only grows the cache domain. -/
theorem shortest_path_inner_dom (g : Graph)
    (recur : Nat → Nat → List Nat → Option Int → Option Int → SPCache →
      Except Err (Option Path × SPCache))
    (hrec : ∀ s d v t b c out c', recur s d v t b c = .ok (out, c') → subDom c c') :
    ∀ (x dst : Nat) (V : List Nat) (t b : Option Int) (c : SPCache)
      (out : LoopOut) (c' : SPCache),
      shortest_path_inner g recur x dst V t b c = .ok (out, c') → subDom c c' := by
  intro x dst V t b c out c' h
  by_cases hx : x = dst
  · simp [shortest_path_inner, hx] at h
    rw [← h.2]
    exact subDom_refl c
  · simp only [shortest_path_inner, if_neg hx] at h
    exact continue_recursively_rel _ subDom subDom_refl
      (fun h1 h2 => subDom_trans h1 h2)
      (fun n2 t' b' cc o cc' hh => hrec n2 dst (x :: V) t' b' cc o cc' hh)
      (g x) V t b none false c out c' h

/-- The memoized `shortest_path` only grows the cache domain. -/
theorem shortest_path_dom (g : Graph) :
    ∀ (fuel : Nat) (save : Bool) (x dst : Nat) (V : List Nat)
      (t b : Option Int) (c : SPCache) (out : Option Path) (c' : SPCache),
      shortest_path g fuel save x dst V t b c = .ok (out, c') → subDom c c' := by
  intro fuel
  induction fuel with
  | zero =>
    intro save x dst V t b c out c' h
    simp [shortest_path] at h
  | succ fuel ih =>
    intro save x dst V t b c out c' h
    have hidom := shortest_path_inner_dom g
      (fun s d v t' b' cc => shortest_path g fuel save s d v t' b' cc)
      (fun s d v t' b' cc o cc' hh => ih save s d v t' b' cc o cc' hh) x dst V t b
    cases save
    · rcases hin : shortest_path_inner g
          (fun s d v t' b' cc => shortest_path g fuel false s d v t' b' cc)
          x dst V t b c with err | ⟨ro, c₁⟩
      · simp [shortest_path, memoized_call, hin] at h
      · cases ro <;> simp only [shortest_path, memoized_call, Bool.false_eq_true,
          if_false, hin] at h <;> simp at h <;> rw [← h.2] <;>
          exact hidom c _ c₁ hin
    · rcases hl : lookupC c (x, dst) with _ | v
      · rcases hin : shortest_path_inner g
            (fun s d v t' b' cc => shortest_path g fuel true s d v t' b' cc)
            x dst V t b c with err | ⟨ro, c₁⟩
        · simp [shortest_path, memoized_call, hl, hin] at h
        · cases ro <;> simp only [shortest_path, memoized_call, if_true, hl, hin] at h <;>
            simp at h <;> rw [← h.2]
          · exact subDom_trans (hidom c _ c₁ hin) (subDom_insert c₁ (x, dst) _)
          · exact subDom_trans (hidom c _ c₁ hin) (subDom_insert c₁ (x, dst) none)
          · exact hidom c _ c₁ hin
      · simp [shortest_path, memoized_call, hl] at h
        rw [← h.2]
        exact subDom_refl c

/-- The loop of `_continue_recursively` run with a `None` tail, no bound
best path and a clear skipped flag: it can never end inconclusive, and
if it ends with no path found, the `None`-closure invariant is
preserved and every listed edge leads into the stack or to a node with
a `None` entry. -/
theorem continue_recursively_none (g : Graph) (dst x : Nat) (V : List Nat)
    (recur : Nat → Option Int → Option Int → SPCache →
      Except Err (Option Path × SPCache))
    (hdom : ∀ n2 t b c out c', recur n2 t b c = .ok (out, c') → subDom c c')
    (hrecN : ∀ n2 b' c out c', noneClosed g dst c (x :: V) →
      recur n2 none b' c = .ok (out, c') → out = none →
      noneClosed g dst c' (x :: V) ∧ lookupC c' (n2, dst) = some none) :
    ∀ (edges : List Edge) (b : Option Int) (c : SPCache) (out : LoopOut)
      (c' : SPCache),
      noneClosed g dst c (x :: V) →
      continue_recursively recur edges V none b none false c = .ok (out, c') →
      out ≠ .incomplete ∧
        (out = .noPath → noneClosed g dst c' (x :: V) ∧
          ∀ e ∈ edges, e.node2 ∈ V ∨ lookupC c' (e.node2, dst) = some none) := by
  intro edges
  induction edges with
  | nil =>
    intro b c out c' hcl h
    simp [continue_recursively] at h
    refine ⟨by rw [← h.1]; simp, fun _ => ⟨by rw [← h.2]; exact hcl, by simp⟩⟩
  | cons e rest ih =>
    intro b c out c' hcl h
    by_cases hv : e.node2 ∈ V
    · simp only [continue_recursively, hv, if_true] at h
      obtain ⟨hni, hnp⟩ := ih b c out c' hcl h
      refine ⟨hni, fun ho => ?_⟩
      obtain ⟨hcl', hrest⟩ := hnp ho
      refine ⟨hcl', fun f hf => ?_⟩
      rcases List.mem_cons.mp hf with rfl | hm
      · exact Or.inl hv
      · exact hrest f hm
    · have ha : pyAdd e.weight none = none := pyAdd_none_right e.weight
      rcases hr : recur e.node2 none b c with err | ⟨_ | p, c₁⟩
      · simp [continue_recursively, hv, ha, hr] at h
      · simp only [continue_recursively, hv, if_false, ha, hr] at h
        obtain ⟨hcl₁, hentry⟩ := hrecN e.node2 b c none c₁ hcl hr rfl
        obtain ⟨hni, hnp⟩ := ih b c₁ out c' hcl₁ h
        refine ⟨hni, fun ho => ?_⟩
        obtain ⟨hcl', hrest⟩ := hnp ho
        refine ⟨hcl', fun f hf => ?_⟩
        rcases List.mem_cons.mp hf with rfl | hm
        · right
          have hd : subDom c₁ c' := continue_recursively_rel recur subDom
            subDom_refl (fun h1 h2 => subDom_trans h1 h2) hdom
            rest V none b none false c₁ out c' h
          have hsome : (lookupC c' (f.node2, dst)).isSome :=
            hd (f.node2, dst) (by simp [hentry])
          rcases ho2 : lookupC c' (f.node2, dst) with _ | rv
          · simp [ho2] at hsome
          · have hrv := (hcl' f.node2 rv ho2).1
            rw [hrv]
        · exact hrest f hm
      · rcases hw : pathWeight (e :: p) with werr | w
        · simp [continue_recursively, hv, ha, hr, hw] at h
        · simp only [continue_recursively, hv, if_false, ha, hr, hw] at h
          obtain ⟨pf, hpf⟩ := continue_recursively_found recur rest V
            (some 0) (some w) (e :: p) false c₁ out c' h
          subst hpf
          exact ⟨by simp, by simp⟩

/-- Soundness of the loop of `_continue_recursively`: a found path
implies the frame's node reaches `dst`, and path-valued cache entries
stay sound. -/
theorem continue_recursively_sound (g : Graph) (dst x : Nat) (V : List Nat)
    (recur : Nat → Option Int → Option Int → SPCache →
      Except Err (Option Path × SPCache))
    (hrecS : ∀ n2 t b c out c', someSoundCache g dst c →
      recur n2 t b c = .ok (out, c') →
      someSoundCache g dst c' ∧ (∀ p, out = some p → Reach g n2 dst)) :
    ∀ (edges : List Edge), (∀ e ∈ edges, e ∈ g x) →
      ∀ (t b : Option Int) (bp : Option Path) (sk : Bool) (c : SPCache)
        (out : LoopOut) (c' : SPCache),
        (∀ p0, bp = some p0 → Reach g x dst) →
        someSoundCache g dst c →
        continue_recursively recur edges V t b bp sk c = .ok (out, c') →
        someSoundCache g dst c' ∧ (∀ p, out = .found p → Reach g x dst) := by
  intro edges
  induction edges with
  | nil =>
    intro _ t b bp sk c out c' hbp hs h
    cases bp
    · cases sk
      · simp [continue_recursively] at h
        rw [← h.2]
        exact ⟨hs, fun p hp => by rw [← h.1] at hp; cases hp⟩
      · simp [continue_recursively] at h
        rw [← h.2]
        exact ⟨hs, fun p hp => by rw [← h.1] at hp; cases hp⟩
    · simp [continue_recursively] at h
      rw [← h.2]
      refine ⟨hs, fun p hp => ?_⟩
      exact hbp _ rfl
  | cons e rest ih =>
    intro hedges t b bp sk c out c' hbp hs h
    have hrest : ∀ f ∈ rest, f ∈ g x :=
      fun f hf => hedges f (List.mem_cons_of_mem e hf)
    by_cases hv : e.node2 ∈ V
    · simp only [continue_recursively, hv, if_true] at h
      exact ih hrest t b bp sk c out c' hbp hs h
    · rcases ha : pyAdd e.weight t with _ | n
      · rcases hr : recur e.node2 none b c with err | ⟨_ | p, c₁⟩
        · simp [continue_recursively, hv, ha, hr] at h
        · simp only [continue_recursively, hv, if_false, ha, hr] at h
          obtain ⟨hs₁, _⟩ := hrecS e.node2 none b c none c₁ hs hr
          exact ih hrest t b bp sk c₁ out c' hbp hs₁ h
        · rcases hw : pathWeight (e :: p) with werr | w
          · simp [continue_recursively, hv, ha, hr, hw] at h
          · simp only [continue_recursively, hv, if_false, ha, hr, hw] at h
            obtain ⟨hs₁, hre⟩ := hrecS e.node2 none b c (some p) c₁ hs hr
            have hreach : Reach g x dst :=
              Relation.ReflTransGen.head
                ⟨e, hedges e (List.mem_cons_self e rest), rfl⟩ (hre p rfl)
            exact ih hrest (some 0) (some w) (some (e :: p)) sk c₁ out c'
              (fun p0 _ => hreach) hs₁ h
      · rcases b with _ | bw
        · simp [continue_recursively, hv, ha] at h
        · by_cases hle : bw ≤ n
          · simp only [continue_recursively, hv, if_false, ha, hle, if_true] at h
            exact ih hrest t (some bw) bp true c out c' hbp hs h
          · rcases hr : recur e.node2 (some n) (some bw) c with err | ⟨_ | p, c₁⟩
            · simp [continue_recursively, hv, ha, hle, hr] at h
            · simp only [continue_recursively, hv, if_false, ha, hle, hr] at h
              obtain ⟨hs₁, _⟩ := hrecS e.node2 (some n) (some bw) c none c₁ hs hr
              exact ih hrest t (some bw) bp sk c₁ out c' hbp hs₁ h
            · rcases hw : pathWeight (e :: p) with werr | w
              · simp [continue_recursively, hv, ha, hle, hr, hw] at h
              · simp only [continue_recursively, hv, if_false, ha, hle, hr, hw] at h
                obtain ⟨hs₁, hre⟩ := hrecS e.node2 (some n) (some bw) c (some p) c₁ hs hr
                have hreach : Reach g x dst :=
                  Relation.ReflTransGen.head
                    ⟨e, hedges e (List.mem_cons_self e rest), rfl⟩ (hre p rfl)
                exact ih hrest (some 0) (some w) (some (e :: p)) sk c₁ out c'
                  (fun p0 _ => hreach) hs₁ h

/-- Path-valued entries stay sound under an insertion whose value is
justified. -/
theorem someSoundCache_insert (g : Graph) (dst : Nat) (c : SPCache) (x : Nat)
    (r : Option Path) (hs : someSoundCache g dst c)
    (hr : ∀ p, r = some p → Reach g x dst) :
    someSoundCache g dst (insertC c (x, dst) r) := by
  intro y p hy
  by_cases hk : ((x, dst) : Nat × Nat) = (y, dst)
  · have hxy : x = y := congrArg Prod.fst hk
    subst hxy
    rw [lookupC_insert_self] at hy
    injection hy with hy'
    exact hr p hy'
  · rw [lookupC_insert_ne _ _ _ _ hk] at hy
    exact hs y p hy

/-- A failing run of the memoized `shortest_path` with a `None` tail and
caching on preserves the `None`-closure invariant and leaves a `None`
entry for its own key. -/
theorem shortest_path_none_main (g : Graph) (dst : Nat) :
    ∀ (fuel x : Nat) (V : List Nat) (b : Option Int) (c : SPCache)
      (out : Option Path) (c' : SPCache),
      noneClosed g dst c V →
      shortest_path g fuel true x dst V none b c = .ok (out, c') → out = none →
      noneClosed g dst c' V ∧ lookupC c' (x, dst) = some none := by
  intro fuel
  induction fuel with
  | zero =>
    intro x V b c out c' _ h _
    simp [shortest_path] at h
  | succ fuel ih =>
    intro x V b c out c' hcl h hout
    rcases hl : lookupC c (x, dst) with _ | v
    · rcases hin : shortest_path_inner g
          (fun s d v t' b' cc => shortest_path g fuel true s d v t' b' cc)
          x dst V none b c with err | ⟨ro, c₁⟩
      · simp [shortest_path, memoized_call, hl, hin] at h
      · by_cases hx : x = dst
        · have h2 := hin
          simp [shortest_path_inner, hx] at h2
          obtain ⟨hro1, _⟩ := h2
          rw [← hro1] at hin
          simp [shortest_path, memoized_call, hl, hin] at h
          rw [← h.1] at hout
          simp at hout
        · have hloopin := hin
          rw [shortest_path_inner, if_neg hx] at hloopin
          have hloop := continue_recursively_none g dst x V
            (fun n2 t' b' cc => shortest_path g fuel true n2 dst (x :: V) t' b' cc)
            (fun n2 t' b' cc o cc' hh =>
              shortest_path_dom g fuel true n2 dst (x :: V) t' b' cc o cc' hh)
            (fun n2 b' cc o cc' hclc hrc hoo => ih n2 (x :: V) b' cc o cc' hclc hrc hoo)
            (g x) b c ro c₁ (noneClosed_weaken g dst c V x hcl) hloopin
          cases ro
          · simp [shortest_path, memoized_call, hl, hin] at h
            rw [← h.1] at hout
            simp at hout
          · simp [shortest_path, memoized_call, hl, hin] at h
            rw [← h.2]
            obtain ⟨hcl₁, hnb⟩ := hloop.2 rfl
            exact ⟨noneClosed_insert g dst c₁ V x hcl₁ hx hnb,
              lookupC_insert_self c₁ (x, dst) none⟩
          · exact absurd rfl hloop.1
    · simp [shortest_path, memoized_call, hl] at h
      have hv := (hcl x v hl).1
      rw [← h.2]
      rw [hv] at hl
      exact ⟨hcl, hl⟩

/-- A path result of the memoized `shortest_path` implies reachability,
under the soundness invariant on path-valued cache entries. -/
theorem shortest_path_sound_main (g : Graph) (dst : Nat) :
    ∀ (fuel : Nat) (save : Bool) (x : Nat) (V : List Nat) (t b : Option Int)
      (c : SPCache) (out : Option Path) (c' : SPCache),
      someSoundCache g dst c →
      shortest_path g fuel save x dst V t b c = .ok (out, c') →
      someSoundCache g dst c' ∧ (∀ p, out = some p → Reach g x dst) := by
  intro fuel
  induction fuel with
  | zero =>
    intro save x V t b c out c' _ h
    simp [shortest_path] at h
  | succ fuel ih =>
    intro save x V t b c out c' hs h
    have hinner : ∀ (c0 : SPCache) (ro : LoopOut) (c₁ : SPCache),
        someSoundCache g dst c0 →
        shortest_path_inner g
          (fun s d v t' b' cc => shortest_path g fuel save s d v t' b' cc)
          x dst V t b c0 = .ok (ro, c₁) →
        someSoundCache g dst c₁ ∧ (∀ p, ro = .found p → Reach g x dst) := by
      intro c0 ro c₁ hs0 hin
      by_cases hx : x = dst
      · simp [shortest_path_inner, hx] at hin
        rw [← hin.2]
        refine ⟨hs0, fun p hp => ?_⟩
        rw [hx]
        exact Relation.ReflTransGen.refl
      · rw [shortest_path_inner, if_neg hx] at hin
        exact continue_recursively_sound g dst x V
          (fun n2 t' b' cc => shortest_path g fuel save n2 dst (x :: V) t' b' cc)
          (fun n2 t' b' cc o cc' hsc hrc => ih save n2 (x :: V) t' b' cc o cc' hsc hrc)
          (g x) (fun f hf => hf) t b none false c0 ro c₁
          (fun p0 hp0 => by cases hp0) hs0 hin
    cases save
    · rcases hin : shortest_path_inner g
          (fun s d v t' b' cc => shortest_path g fuel false s d v t' b' cc)
          x dst V t b c with err | ⟨ro, c₁⟩
      · simp [shortest_path, memoized_call, hin] at h
      · obtain ⟨hs₁, hre⟩ := hinner c ro c₁ hs hin
        cases ro <;> simp only [shortest_path, memoized_call, Bool.false_eq_true,
            if_false, hin] at h <;> simp at h <;> rw [← h.2]
        · exact ⟨hs₁, fun p _ => hre _ rfl⟩
        · refine ⟨hs₁, fun p hp => ?_⟩
          rw [← h.1] at hp
          exact Option.noConfusion hp
        · refine ⟨hs₁, fun p hp => ?_⟩
          rw [← h.1] at hp
          exact Option.noConfusion hp
    · rcases hl : lookupC c (x, dst) with _ | v
      · rcases hin : shortest_path_inner g
            (fun s d v t' b' cc => shortest_path g fuel true s d v t' b' cc)
            x dst V t b c with err | ⟨ro, c₁⟩
        · simp [shortest_path, memoized_call, hl, hin] at h
        · obtain ⟨hs₁, hre⟩ := hinner c ro c₁ hs hin
          cases ro <;> simp only [shortest_path, memoized_call, if_true, hl, hin] at h <;>
              simp at h <;> rw [← h.2]
          · exact ⟨someSoundCache_insert g dst c₁ x _ hs₁ (fun p _ => hre _ rfl),
              fun p _ => hre _ rfl⟩
          · refine ⟨someSoundCache_insert g dst c₁ x none hs₁
              (fun p hp => Option.noConfusion hp), fun p hp => ?_⟩
            rw [← h.1] at hp
            exact Option.noConfusion hp
          · refine ⟨hs₁, fun p hp => ?_⟩
            rw [← h.1] at hp
            exact Option.noConfusion hp
      · simp [shortest_path, memoized_call, hl] at h
        rw [← h.2]
        refine ⟨hs, fun p hp => ?_⟩
        rw [← h.1] at hp
        rw [hp] at hl
        exact hs x p hl

/-- From a neighbour-closed set of `false` entries at an empty stack,
no entry's node can reach `dst`. -/
theorem not_reach_of_falseClosed (g : Graph) (dst : Nat) (c : PECache)
    (hcl : falseClosed g dst c []) (a : Nat)
    (ha : lookupC c (a, dst) = some false) : ¬ Reach g a dst := by
  intro hr
  have key : ∀ x y, Relation.ReflTransGen (adjStep g) x y →
      lookupC c (x, dst) = some false → lookupC c (y, dst) = some false := by
    intro x y hxy
    induction hxy with
    | refl => exact fun h => h
    | tail hz hstep ihz =>
      intro hx
      obtain ⟨e, he, hnode⟩ := hstep
      have hmid := ihz hx
      obtain ⟨_, _, h3⟩ := hcl _ false hmid
      rcases h3 e he with hv | hl
      · exact absurd hv (List.not_mem_nil _)
      · rw [hnode] at hl
        exact hl
  have hdst := key a dst hr ha
  exact (hcl dst false hdst).2.1 rfl

/-- From a neighbour-closed set of `None` entries at an empty stack, no
entry's node can reach `dst`. -/
theorem not_reach_of_noneClosed (g : Graph) (dst : Nat) (c : SPCache)
    (hcl : noneClosed g dst c []) (a : Nat)
    (ha : lookupC c (a, dst) = some none) : ¬ Reach g a dst := by
  intro hr
  have key : ∀ x y, Relation.ReflTransGen (adjStep g) x y →
      lookupC c (x, dst) = some none → lookupC c (y, dst) = some none := by
    intro x y hxy
    induction hxy with
    | refl => exact fun h => h
    | tail hz hstep ihz =>
      intro hx
      obtain ⟨e, he, hnode⟩ := hstep
      have hmid := ihz hx
      obtain ⟨_, _, h3⟩ := hcl _ none hmid
      rcases h3 e he with hv | hl
      · exact absurd hv (List.not_mem_nil _)
      · rw [hnode] at hl
        exact hl
  have hdst := key a dst hr ha
  exact (hcl dst none hdst).2.1 rfl

/-! Theorems settling the claims. -/

/-- C1 counterexample: after the single call `shortest_path(c, b)` on
the unmodified graph `exG1` with fresh caches, the cache holds the
entry `None` for the key `(p, b) = (2, 1)`, yet a fresh call
`shortest_path(p, b)` on the same unchanged graph returns a path — so a
cached `None` obtained while a descendant call pruned unexplored edges
does not mean a definitive no-path, contradicting the claimed
exhaustiveness invariant. -/
theorem claim1_counterexample :
    runResult exG1 20 0 1 = some (some [⟨0, 1, some 3⟩]) ∧
    lookupC (cacheAfter exG1 20 0 1) (2, 1) = some none ∧
    runResult exG1 20 2 1 = some (some [⟨2, 0, some 1⟩, ⟨0, 1, some 3⟩]) :=
  ⟨rfl, rfl, rfl⟩

/-- C1 amended: the memoize wrapper never caches the result of a call
that itself signalled the inconclusive condition; but results of
enclosing calls that consumed such an inconclusive child's `None` are
cached, so a cached `None` does not always mean a definitive
no-path (witnessed on `exG1`, where the entry `(2, 1) ↦ None` coexists
with a path from node 2 to node 1 that a fresh call finds). -/
theorem claim1_amended_no_cache_on_inconclusive :
    (∀ (κ : Type) [DecidableEq κ] (key : κ)
        (inner : List (κ × Option Path) → Except Err (LoopOut × List (κ × Option Path)))
        (c c' : List (κ × Option Path)),
        lookupC c key = none → inner c = .ok (.incomplete, c') →
        memoized_call true key inner c = .ok (none, c')) ∧
    lookupC (cacheAfter exG1 20 0 1) (2, 1) = some none ∧
    runResult exG1 20 2 1 = some (some [⟨2, 0, some 1⟩, ⟨0, 1, some 3⟩]) := by
  refine ⟨?_, rfl, rfl⟩
  intro κ _ key inner c c' h hin
  simp [memoized_call, h, hin]

/-- C1 amended witness: the wrapper part applied to a concrete
inconclusive inner call on the empty cache. -/
theorem claim1_amended_witness :
    memoized_call true ((0, 0) : Nat × Nat)
      (fun c => .ok (.incomplete, c)) ([] : SPCache) = .ok (none, []) :=
  claim1_amended_no_cache_on_inconclusive.1 (Nat × Nat) (0, 0)
    (fun c => .ok (.incomplete, c)) [] [] rfl rfl

/-- C2: on an unmodified graph with fresh caches, a top-level
`path_exists(a, b)` returns `True` exactly when a top-level
`shortest_path(a, b)` returns a non-`None` Path (whenever both runs
complete without crashing or exhausting the embedding's fuel). -/
theorem claim2_path_exists_iff_shortest_path (g : Graph) (a b f1 f2 : Nat)
    (rs : Option Path) (c1 : SPCache) (rp : Bool) (c2 : PECache)
    (hs : shortest_path g f1 true a b [] none none [] = .ok (rs, c1))
    (hp : path_exists g f2 true a b [] [] = .ok (rp, c2)) :
    rp = true ↔ rs ≠ none := by
  constructor
  · intro hrp hrs
    have hreach := (path_exists_sound_main g b f2 true a [] [] rp c2
      (fun y hy => by simp [lookupC] at hy) hp).2 hrp
    have hnone := shortest_path_none_main g b f1 a [] none [] rs c1
      (fun y r hy => by simp [lookupC] at hy) hs hrs
    exact not_reach_of_noneClosed g b c1 hnone.1 a hnone.2 hreach
  · intro hrs
    rcases ho : rs with _ | p
    · exact absurd ho hrs
    · have hreach := (shortest_path_sound_main g b f1 true a [] none none [] rs c1
        (fun y q hy => by simp [lookupC] at hy) hs).2 p ho
      by_contra hrp
      have hrpf : rp = false := by
        cases rp
        · rfl
        · exact absurd rfl hrp
      have hfalse := path_exists_false_main g b f2 a [] [] rp c2
        (fun y r hy => by simp [lookupC] at hy) hp hrpf
      exact not_reach_of_falseClosed g b c2 hfalse.1 a hfalse.2 hreach

/-- C2 witness: both searches run on the concrete chain graph, where
`path_exists` returns `True` and `shortest_path` returns a path. -/
theorem claim2_witness :
    (true : Bool) = true ↔
      (some [⟨0, 1, some 2⟩, ⟨1, 2, some 3⟩] : Option Path) ≠ none :=
  claim2_path_exists_iff_shortest_path exGA 0 2 20 20
    (some [⟨0, 1, some 2⟩, ⟨1, 2, some 3⟩]) (cacheAfter exGA 20 0 2)
    true (peCacheAfter exGA 20 0 2) rfl rfl

/-- C3: on a cache miss with caching enabled, the memoized
`shortest_path` converts an inconclusive signal of the wrapped search
body into a `None` return with no entry stored under the call's key,
while a found path or a definitive `None` outcome is stored under the
key and returned. -/
theorem claim3_wrapper_inconclusive_uncached (g : Graph)
    (fuel start dst : Nat) (v : List Nat) (t b : Option Int) (c c' : SPCache)
    (h : lookupC c (start, dst) = none) :
    (shortest_path_inner g
        (fun s d vv tt bb cc => shortest_path g fuel true s d vv tt bb cc)
        start dst v t b c = .ok (.incomplete, c') →
      shortest_path g (fuel + 1) true start dst v t b c = .ok (none, c')) ∧
    (∀ p, shortest_path_inner g
        (fun s d vv tt bb cc => shortest_path g fuel true s d vv tt bb cc)
        start dst v t b c = .ok (.found p, c') →
      shortest_path g (fuel + 1) true start dst v t b c =
        .ok (some p, insertC c' (start, dst) (some p))) ∧
    (shortest_path_inner g
        (fun s d vv tt bb cc => shortest_path g fuel true s d vv tt bb cc)
        start dst v t b c = .ok (.noPath, c') →
      shortest_path g (fuel + 1) true start dst v t b c =
        .ok (none, insertC c' (start, dst) none)) := by
  refine ⟨fun hin => ?_, fun p hin => ?_, fun hin => ?_⟩ <;>
    simp [shortest_path, memoized_call, h, hin]

/-- C3 witness: the frame of `exG1` at `(d, b) = (3, 1)` whose body
prunes its only unexplored edge and finds nothing, so the wrapped
function signals inconclusive and the wrapper returns `None` leaving
the cache exactly as the body left it (no entry under `(3, 1)`). -/
theorem claim3_witness :
    shortest_path exG1 1 true 3 1 [2, 0] (some 2) (some 3) [((1, 1), some [])] =
      .ok (none, [((1, 1), some [])]) :=
  (claim3_wrapper_inconclusive_uncached exG1 0 3 1 [2, 0] (some 2) (some 3)
    [((1, 1), some [])] [((1, 1), some [])] rfl).1 rfl

/-- C4: a cached call returns the cached value immediately with no
cache side effect and without invoking the wrapped function (the result
is the same for every wrapped function), for the generic wrapper and
for each of the three memoized search functions; and the set key
component is canonicalized so that equal sets in any order give the
same key. -/
theorem claim4_cached_idempotence :
    (∀ (κ : Type) [DecidableEq κ] (key : κ)
        (inner1 inner2 : List (κ × Option Path) → Except Err (LoopOut × List (κ × Option Path)))
        (c : List (κ × Option Path)) (v : Option Path),
        lookupC c key = some v →
        memoized_call true key inner1 c = .ok (v, c) ∧
        memoized_call true key inner1 c = memoized_call true key inner2 c) ∧
    (∀ (g : Graph) (fuel s d : Nat) (vis : List Nat) (t b : Option Int)
        (c : SPCache) (r : Option Path), lookupC c (s, d) = some r →
        shortest_path g (fuel + 1) true s d vis t b c = .ok (r, c)) ∧
    (∀ (g : Graph) (fuel s d : Nat) (vis : List Nat) (c : PECache) (r : Bool),
        lookupC c (s, d) = some r →
        path_exists g (fuel + 1) true s d vis c = .ok (r, c)) ∧
    (∀ (g : Graph) (fuel s : Nat) (l vis : List Nat) (t b : Option Int)
        (c : TNCache) (r : Option Path), lookupC c (tnKey s l) = some r →
        shortest_path_through_network g (fuel + 1) true s l vis t b c = .ok (r, c)) ∧
    (∀ (s : Nat) (l1 l2 : List Nat), (∀ x, x ∈ l1 ↔ x ∈ l2) →
        tnKey s l1 = tnKey s l2) := by
  refine ⟨?_, ?_, ?_, ?_, ?_⟩
  · intro κ _ key inner1 inner2 c v h
    constructor <;> simp [memoized_call, h]
  · intro g fuel s d vis t b c r h
    simp [shortest_path, memoized_call, h]
  · intro g fuel s d vis c r h
    simp [path_exists, memoized_call_pe, h]
  · intro g fuel s l vis t b c r h
    simp [shortest_path_through_network, memoized_call, h]
  · intro s l1 l2 h
    have hf : l1.toFinset = l2.toFinset := by
      ext x
      simpa using h x
    simp [tnKey, hf]

/-- C4 witness: cache hits of the three search functions at concrete
cached keys (for the set-keyed variant through a differently ordered
but equal set), plus the set canonicalization at a concrete pair. -/
theorem claim4_witness :
    shortest_path emptyGraph 1 true 0 1 [] none none [((0, 1), none)] =
      .ok (none, [((0, 1), none)]) ∧
    path_exists emptyGraph 1 true 0 1 [] [((0, 1), false)] =
      .ok (false, [((0, 1), false)]) ∧
    shortest_path_through_network emptyGraph 1 true 0 [1, 2] [] none none
      [(tnKey 0 [2, 1, 1], none)] = .ok (none, [(tnKey 0 [2, 1, 1], none)]) ∧
    tnKey 0 [1, 2] = tnKey 0 [2, 1, 1] := by
  have h := claim4_cached_idempotence
  refine ⟨h.2.1 emptyGraph 0 0 1 [] none none [((0, 1), none)] none rfl,
    h.2.2.1 emptyGraph 0 0 1 [] [((0, 1), false)] false rfl,
    h.2.2.2.1 emptyGraph 0 0 [1, 2] [] none none [(tnKey 0 [2, 1, 1], none)] none ?_,
    h.2.2.2.2 0 [1, 2] [2, 1, 1] (by intro x; simp; omega)⟩
  have hk : tnKey 0 [2, 1, 1] = tnKey 0 [1, 2] :=
    h.2.2.2.2 0 [2, 1, 1] [1, 2] (by intro x; simp; omega)
  simp [lookupC, hk]

/-- C5: the two weight-correctness examples.  For the chain
A(0)-B(1) weight 2, B(1)-C(2) weight 3, `shortest_path(A, C)` returns
the path [A-B, B-C] of weight 5; for nodes a(0), b(1), c(2), d(3) with
edges a-d(2), b-c(2), b-d(3), c-d(3), `shortest_path(a, c)` returns the
path [a-d, d-c] of weight 5 rather than any higher-weight
alternative. -/
theorem claim5_shortest_path_examples :
    runResult exGA 20 0 2 = some (some [⟨0, 1, some 2⟩, ⟨1, 2, some 3⟩]) ∧
    pathWeight [⟨0, 1, some 2⟩, ⟨1, 2, some 3⟩] = .ok 5 ∧
    runResult exGB 20 0 2 = some (some [⟨0, 3, some 2⟩, ⟨3, 2, some 3⟩]) ∧
    pathWeight [⟨0, 3, some 2⟩, ⟨3, 2, some 3⟩] = .ok 5 :=
  ⟨rfl, rfl, rfl, rfl⟩

/-- C6: for every node `a` on any graph, with no cache entry under
`(a, a)`, the memoized `shortest_path(a, a)` returns the empty Path
(and stores it), and the empty Path has weight 0. -/
theorem claim6_self_path_empty (g : Graph) (a fuel : Nat) (c : SPCache)
    (h : lookupC c (a, a) = none) :
    shortest_path g (fuel + 1) true a a [] none none c =
      .ok (some [], insertC c (a, a) (some [])) ∧ pathWeight [] = .ok 0 := by
  constructor
  · simp [shortest_path, memoized_call, h, shortest_path_inner]
  · rfl

/-- C6 witness at a concrete node and graph with a fresh cache. -/
theorem claim6_witness :
    shortest_path emptyGraph 1 true 0 0 [] none none [] =
      .ok (some [], insertC [] (0, 0) (some [])) ∧ pathWeight [] = .ok 0 :=
  claim6_self_path_empty emptyGraph 0 0 [] rfl

/-- C7 counterexample: a Path holding one weight-absent edge.  The
claim says its weight equals the sum of its explicitly weighted edges
(here 0); the code's `Path.weight` instead raises `TypeError` when it
sums the `None` weight. -/
theorem claim7_counterexample :
    pathWeight [⟨0, 1, none⟩] = .error .typeErr ∧
    specPathWeight [⟨0, 1, none⟩] = 0 :=
  ⟨rfl, rfl⟩

/-- C7 amended: `Path.weight` equals the sum of the edge weights for
every Path all of whose edges carry explicit weights, and the empty
Path has weight 0; but a Path containing a weight-absent edge has no
weight — the computation raises `TypeError` instead of treating the
missing weight as zero. -/
theorem claim7_amended_weight :
    (∀ p : List Edge, (∀ e ∈ p, e.weight ≠ none) →
      pathWeight p = .ok (specPathWeight p)) ∧
    pathWeight [] = .ok 0 ∧
    (∀ (p : List Edge) (e : Edge), e ∈ p → e.weight = none →
      pathWeight p = .error .typeErr) := by
  refine ⟨fun p h => ?_, rfl, fun p e he hw => pathWeightAux_has_none p 0 e he hw⟩
  have h0 := pathWeightAux_all_some p 0 h
  simpa [pathWeight] using h0

/-- C7 amended witness at concrete paths. -/
theorem claim7_amended_witness :
    pathWeight [⟨0, 1, some 2⟩, ⟨1, 2, some 3⟩] =
      .ok (specPathWeight [⟨0, 1, some 2⟩, ⟨1, 2, some 3⟩]) ∧
    pathWeight [⟨0, 1, some 2⟩, ⟨1, 2, none⟩] = .error .typeErr :=
  ⟨claim7_amended_weight.1 [⟨0, 1, some 2⟩, ⟨1, 2, some 3⟩] (by decide),
    claim7_amended_weight.2.2 [⟨0, 1, some 2⟩, ⟨1, 2, none⟩] ⟨1, 2, none⟩
      (by decide) rfl⟩

/-- C8 (code bug): `Path.__str__` passes the edge sequence to
`dotgraph` under the keyword `edges`, but the `dotgraph` of
`src/pynetworks/dot.py` has parameters `isolated_nodes`, `connections`,
`name`, so the call raises `TypeError` instead of returning the DOT
text; the text `dotgraph` would produce for the edge sequence does
begin with the token `graph` and a brace-delimited body as claimed. -/
theorem claim8_path_str_type_error :
    Dot.pathStr [⟨⟨"A"⟩, ⟨"B"⟩, some 3⟩] = .error Dot.unexpectedKeywordMsg ∧
    ¬ (Dot.pathStrKeyword ∈ Dot.dotgraphParamNames) ∧
    Dot.dotgraph [] [⟨⟨"A"⟩, ⟨"B"⟩, some 3⟩] "" = exPathDot :=
  ⟨rfl, by decide, rfl⟩

/-- C9: every recursive internal invocation goes through the same
memoization wrapper as top-level calls, so a call whose key — built
solely from the first two arguments — is cached returns the cached
value whatever the private `_visited`, `_tail_weight` and
`_best_path_weight` arguments are; concretely on the one-edge graph the
wrapped body's result does depend on `_visited` (a path for an empty
visited set, `None` when the far node is marked visited), inner
recursive calls write their results into the one shared cache (the
entry `(1, 1)` written by the inner base-case call), and with the
cache populated the same differing-`_visited` call returns the cached
path. -/
theorem claim9_shared_cache_key_ignores_private_args :
    (∀ (g : Graph) (fuel n2 d : Nat) (c : SPCache) (r : Option Path),
        lookupC c (n2, d) = some r →
        ∀ (v v' : List Nat) (t t' b b' : Option Int),
          shortest_path g (fuel + 1) true n2 d v t b c = .ok (r, c) ∧
          shortest_path g (fuel + 1) true n2 d v t b c =
            shortest_path g (fuel + 1) true n2 d v' t' b' c) ∧
    runResult exGD 5 0 1 = some (some [⟨0, 1, some 1⟩]) ∧
    shortest_path exGD 5 true 0 1 [1] none none [] = .ok (none, [((0, 1), none)]) ∧
    lookupC (cacheAfter exGD 5 0 1) (1, 1) = some (some []) ∧
    shortest_path exGD 5 true 0 1 [1] none none (cacheAfter exGD 5 0 1) =
      .ok (some [⟨0, 1, some 1⟩], cacheAfter exGD 5 0 1) := by
  refine ⟨?_, rfl, rfl, rfl, rfl⟩
  intro g fuel n2 d c r h v v' t t' b b'
  constructor <;> simp [shortest_path, memoized_call, h]

/-- C9 witness: the cached-key part applied at a concrete cache and
concrete private arguments. -/
theorem claim9_witness :
    shortest_path exGD 1 true 0 1 [7] (some 5) (some 9) [((0, 1), none)] =
      .ok (none, [((0, 1), none)]) :=
  (claim9_shared_cache_key_ignores_private_args.1 exGD 0 0 1 [((0, 1), none)]
    none rfl [7] [] (some 5) none (some 9) none).1

/-- C10: `Node.isolate` empties only the receiving node's own edge
list: every other node's list is untouched, so after
`a.isolate()` a former neighbour `b` still holds its mirrored edge back
to `a`, and a traversal starting at `b` (here `path_exists(b, a)` on
the concrete two-node graph) still enters `a`. -/
theorem claim10_isolate_frame (g : Graph) (a b : Nat) (w : Option Int)
    (hab : b ≠ a) :
    isolate (connect g a b w) a a = [] ∧
    (∀ n, n ≠ a → isolate (connect g a b w) a n = connect g a b w n) ∧
    Edge.mk b a w ∈ isolate (connect g a b w) a b ∧
    path_exists (isolate (connect emptyGraph 0 1 none) 0) 2 true 1 0 [] [] =
      .ok (true, [((1, 0), true), ((0, 0), true)]) := by
  refine ⟨?_, ?_, ?_, rfl⟩
  · simp [isolate]
  · intro n hn
    simp [isolate, hn]
  · simp [isolate, connect, hab]

/-- C10 witness: the frame property and the surviving mirrored edge at
the concrete two-node graph. -/
theorem claim10_witness :
    isolate (connect emptyGraph 0 1 none) 0 0 = [] ∧
    Edge.mk 1 0 none ∈ isolate (connect emptyGraph 0 1 none) 0 1 :=
  ⟨(claim10_isolate_frame emptyGraph 0 1 none (by decide)).1,
    (claim10_isolate_frame emptyGraph 0 1 none (by decide)).2.2.1⟩

end Pynetworks
